import Mathlib

/-!
Verification development for the syncthing/apt-web release-asset redirect
layer.  The Go source (`github_proxy.go`, `main.go`) is shallowly embedded:
strings are lists of characters, Go maps are association lists with
overwrite-on-insert semantics, network fetches become `Except` values that
carry either the decoded release list or a fetch/decode error, and the
HTTP handler chain becomes a pure function from the published catalog,
the request path and the User-Agent header to an abstract response.
-/

set_option maxRecDepth 8192

/-- Character strings of the embedded program (Go strings, restricted to the
character sequences the handlers manipulate). -/
abbrev Str := List Char

/-! ## Go string primitives used by the source -/

/-- Whitespace recognizer backing `strings.Fields` (`unicode.IsSpace`),
modelled on the Latin-1 portion of the table the source can encounter in
User-Agent headers. -/
def goIsSpace (c : Char) : Bool :=
  c = ' ' || c = '\t' || c = '\n' || c.val = 11 || c.val = 12 || c = '\r' ||
    c.val = 0x85 || c.val = 0xA0

/-- Splits a string at every character satisfying `p`, keeping empty runs;
`strings.Split` for a one-character separator is `splitWhen (· = sep)`. -/
def splitWhen (p : Char → Bool) : Str → List Str
  | [] => [[]]
  | c :: t =>
    if p c then [] :: splitWhen p t
    else
      match splitWhen p t with
      | [] => [[c]]
      | w :: ws => (c :: w) :: ws

/-- Model of `strings.Fields`: the maximal runs of non-whitespace characters. -/
def goFields (s : Str) : List Str :=
  (splitWhen goIsSpace s).filter (fun w => w ≠ [])

/-- Model of `strings.Split(s, sep)` for a single-character separator. -/
def goSplit (sep : Char) (s : Str) : List Str :=
  splitWhen (fun c => c = sep) s

/-- Model of `strings.Trim`: removes leading and trailing characters that
belong to the cutset. -/
def goTrim (s : Str) (cut : List Char) : Str :=
  ((s.dropWhile (· ∈ cut)).reverse.dropWhile (· ∈ cut)).reverse

/-- Model of `strings.Replace(s, old, new, 1)` for one-character `old` and
`new`: only the first occurrence is replaced. -/
def replaceFirst (s : Str) (old new : Char) : Str :=
  match s with
  | [] => []
  | c :: t => if c = old then new :: t else c :: replaceFirst t old new

/-- Digit accumulator backing `strconv.ParseUint` in base 10: fails on any
non-digit character. -/
def digitsToNat (acc : Nat) : Str → Option Nat
  | [] => some acc
  | c :: t => if c.isDigit then digitsToNat (acc * 10 + (c.toNat - '0'.toNat)) t else none

/-- Model of `strconv.ParseInt(s, 10, 32)`: optional sign, decimal digits,
and the int32 range check; `none` stands for a non-nil error (syntax or
range). -/
def parseInt32 (s : Str) : Option Int :=
  match s with
  | [] => none
  | '+' :: rest =>
    match rest with
    | [] => none
    | _ => (digitsToNat 0 rest).bind fun n =>
        if n ≤ 2147483647 then some (n : Int) else none
  | '-' :: rest =>
    match rest with
    | [] => none
    | _ => (digitsToNat 0 rest).bind fun n =>
        if n ≤ 2147483648 then some (-(n : Int)) else none
  | _ => (digitsToNat 0 s).bind fun n =>
      if n ≤ 2147483647 then some (n : Int) else none

/-- Model of `path.Base`: the final path element after trailing slashes are
removed; `"."` for the empty path, `"/"` when only slashes remain. -/
def pathBase (p : Str) : Str :=
  if p = [] then ['.']
  else
    let p1 := (p.reverse.dropWhile (· = '/')).reverse
    let p2 := (p1.reverse.takeWhile (· ≠ '/')).reverse
    if p2 = [] then ['/'] else p2

/-- Hexadecimal digit test backing `net/url.ishex`. -/
def isHexChar (c : Char) : Bool :=
  ('0' ≤ c && c ≤ '9') || ('a' ≤ c && c ≤ 'f') || ('A' ≤ c && c ≤ 'F')

/-- Value of a hexadecimal digit (`net/url.unhex`). -/
def hexVal (c : Char) : Nat :=
  if '0' ≤ c && c ≤ '9' then c.toNat - '0'.toNat
  else if 'a' ≤ c && c ≤ 'f' then c.toNat - 'a'.toNat + 10
  else if 'A' ≤ c && c ≤ 'F' then c.toNat - 'A'.toNat + 10
  else 0

/-- Model of `url.PathUnescape`: decodes every `%XX` escape; `none` stands
for the `EscapeError` produced by a `%` that is not followed by two hex
digits.  In path-segment mode this is the only error source and `+` is left
untouched. -/
def pathUnescape : Str → Option Str
  | [] => some []
  | '%' :: rest =>
    match rest with
    | a :: b :: t =>
      if isHexChar a && isHexChar b then
        (pathUnescape t).map (fun u => Char.ofNat (hexVal a * 16 + hexVal b) :: u)
      else none
    | _ => none
  | c :: t => (pathUnescape t).map (fun u => c :: u)

/-! ## Data model (`asset`, `release`, the catalog map) -/

/-- One release asset as decoded from a feed (`asset` in the source). -/
structure Asset where
  name : Str
  browserURL : Str
  size : Nat
deriving DecidableEq

/-- One upstream release (`release` in the source). -/
structure Release where
  tag : Str
  assets : List Asset
deriving DecidableEq

instance : Inhabited Asset := ⟨⟨[], [], 0⟩⟩

instance : Inhabited Release := ⟨⟨[], []⟩⟩

/-- Go's `map[string]asset`, embedded as an association list whose `insert`
overwrites in place (so iteration order is insertion order, as good a stand-in
as any for Go's unspecified order, and keys stay unique). -/
abbrev AssetMap := List (Str × Asset)

/-- Map lookup, `m[k]`. -/
def AssetMap.find : AssetMap → Str → Option Asset
  | [], _ => none
  | (k0, v0) :: t, k => if k0 = k then some v0 else AssetMap.find t k

/-- Map assignment, `m[k] = v`: replaces the value in place when the key is
present, appends otherwise. -/
def AssetMap.insert : AssetMap → Str → Asset → AssetMap
  | [], k, v => [(k, v)]
  | (k0, v0) :: t, k, v =>
    if k0 = k then (k0, v) :: t else (k0, v0) :: AssetMap.insert t k v

/-- Map deletion, `delete(m, k)`: removes every entry for the key. -/
def AssetMap.erase (m : AssetMap) (k : Str) : AssetMap :=
  m.filter (fun kv => kv.1 ≠ k)

/-- Keys of the map, in entry order. -/
def AssetMap.keys (m : AssetMap) : List Str :=
  m.map (fun kv => kv.1)

/-! ## Release Catalog Builder (`fetchGithubReleaseAssets`, `Serve` merge) -/

/-- Asset-collection loop of `fetchGithubReleaseAssets`: every asset of every
release of one decoded feed, inserted into a fresh map, so that a name
repeated within the feed keeps its last occurrence. -/
def fetchedAssets (rels : List Release) : AssetMap :=
  rels.foldl (fun m rel => rel.assets.foldl (fun m a => m.insert a.name a) m) []

/-- Outcome of fetching and decoding one feed: the decoded release list, or
the fetch/decode error that `fetchGithubReleaseAssets` returns. -/
abbrev FetchResult := Except Str (List Release)

/-- Model of `fetchGithubReleaseAssets`: a fetch or decode error propagates,
otherwise the per-feed asset map is built. -/
def fetchGithubReleaseAssets (r : FetchResult) : Except Str AssetMap :=
  r.map fetchedAssets

/-- State of the merge loop in `Serve`: the accumulating catalog and the set
of names already seen in more than one feed. -/
structure MergeState where
  newAssets : AssetMap
  nonUnique : List Str
deriving DecidableEq

/-- Body of `for key, asset := range assets` in `Serve`: skip keys already
known duplicated, demote keys seen a second time, insert fresh keys. -/
def mergeEntry (st : MergeState) (kv : Str × Asset) : MergeState :=
  if kv.1 ∈ st.nonUnique then st
  else if (st.newAssets.find kv.1).isSome then
    { newAssets := st.newAssets.erase kv.1, nonUnique := kv.1 :: st.nonUnique }
  else
    { newAssets := st.newAssets.insert kv.1 kv.2, nonUnique := st.nonUnique }

/-- Merge of one feed's asset map into the accumulating state. -/
def mergeFeed (st : MergeState) (m : AssetMap) : MergeState :=
  m.foldl mergeEntry st

/-- Feed loop of one `Serve` timer firing: fetch each feed in order, abort on
the first error, merge otherwise. -/
def serveBuild : MergeState → List FetchResult → Except Str AssetMap
  | st, [] => .ok st.newAssets
  | _, .error e :: _ => .error e
  | st, .ok rels :: rest => serveBuild (mergeFeed st (fetchedAssets rels)) rest

/-- One complete build cycle of `Serve` over the configured feed list. -/
def serveOnce (fetches : List FetchResult) : Except Str AssetMap :=
  serveBuild ⟨[], []⟩ fetches

/-- Pure catalog of one build cycle in which every fetch succeeded. -/
def buildCatalog (feeds : List (List Release)) : AssetMap :=
  (feeds.foldl (fun st rels => mergeFeed st (fetchedAssets rels)) ⟨[], []⟩).newAssets

/-- The `Serve` refresher loop over successive timer firings, each firing
described by its list of per-feed fetch outcomes.  On a build error the loop
returns at once with the published catalog unchanged; otherwise the new
catalog is published and the loop continues. -/
def serve (published : AssetMap) : List (List FetchResult) → AssetMap × Option Str
  | [] => (published, none)
  | cycle :: rest =>
    match serveOnce cycle with
    | .error e => (published, some e)
    | .ok m => serve m rest

/-! ## Client Compatibility Heuristic (`buggyAPTVersion`) -/

/-- Model of `githubRedirector.buggyAPTVersion`: the sequential
early-return chain of the source, verbatim. -/
def buggyAPTVersion (ua : Str) : Bool :=
  match goFields ua with
  | f0 :: f1 :: f2 :: _ =>
    if f0 ≠ "Debian".toList || !("APT-HTTP".toList.isPrefixOf f1) then false
    else
      match goSplit '.' (goTrim f2 ['(', ')']) with
      | p0 :: p1 :: _ =>
        (match parseInt32 p0 with
        | none => false
        | some maj =>
          if maj < 2 then true
          else if maj > 2 then false
          else
            match parseInt32 p1 with
            | none => false
            | some mi => decide (mi < 2))
      | _ => false
  | _ => false

/-- Decision table of the compatibility heuristic as the specification words
it: at least three whitespace fields, agent label `Debian`, protocol tag
beginning `APT-HTTP`, at least two dot-separated version components, and the
version threshold `major < 2 ∨ (major = 2 ∧ minor < 2)`. -/
def buggyDecisionTable (ua : Str) : Prop :=
  ∃ f0 f1 f2 fs, goFields ua = f0 :: f1 :: f2 :: fs ∧
    f0 = "Debian".toList ∧
    "APT-HTTP".toList.isPrefixOf f1 = true ∧
    ∃ p0 p1 ps, goSplit '.' (goTrim f2 ['(', ')']) = p0 :: p1 :: ps ∧
      ∃ maj, parseInt32 p0 = some maj ∧
        (maj < 2 ∨ (maj = 2 ∧ ∃ mi, parseInt32 p1 = some mi ∧ mi < 2))

/-! ## Redirect Dispatcher (`ServeHTTP`) -/

/-- Abstract outcome of one request as the handlers decide it: an HTTP
redirect with a Location and status code, delegation to the next handler in
the chain (the caching proxy), or the filter's not-found response. -/
inductive Response where
  | redirect (location : Str) (status : Nat)
  | next
  | notFound
deriving DecidableEq

/-- Candidate name of a request: the final path segment, percent-decoded
when decoding succeeds, kept verbatim otherwise (lines 92-95 of
`github_proxy.go`). -/
def candidateName (urlPath : Str) : Str :=
  let file := pathBase urlPath
  match pathUnescape file with
  | some unesc => unesc
  | none => file

/-- The locked two-step lookup of `ServeHTTP`: direct lookup first, then one
retry with the first `~` replaced by `.`. -/
def resolveAsset (m : AssetMap) (file : Str) : Option Asset :=
  match m.find file with
  | some a => some a
  | none => m.find (replaceFirst file '~' '.')

/-- Model of `githubRedirector.ServeHTTP`: normalize the final path segment,
resolve it against the published catalog, and either fall through to the
next handler (miss, or flagged client) or issue a 307 redirect to the
asset's download URL. -/
def serveHTTP (assets : AssetMap) (urlPath ua : Str) : Response :=
  let file0 := pathBase urlPath
  let file := match pathUnescape file0 with
    | some unesc => unesc
    | none => file0
  match resolveAsset assets file with
  | none => Response.next
  | some a =>
    if buggyAPTVersion ua then Response.next
    else Response.redirect a.browserURL 307

/-- The `assets` field of a freshly constructed `githubRedirector`: the Go
zero value is a nil map, in which every lookup misses. -/
def initialAssets : AssetMap := []

/-- The decision `ServeHTTP` takes once the candidate name is fixed: fall
through on a miss, fall through for a flagged client, redirect otherwise. -/
def redirectDecision (assets : AssetMap) (file ua : Str) : Response :=
  match resolveAsset assets file with
  | none => Response.next
  | some a =>
    if buggyAPTVersion ua then Response.next
    else Response.redirect a.browserURL 307

/-! ## Filename Filter (`validateFilename` and Go's `path.Match`)

The glob matcher below is a transliteration of `path/match.go`.  Pattern
errors (`ErrBadPattern`) are `Except.error ()`; recursion that Go expresses
with loops over a strictly shrinking pattern carries fuel that is
initialised to more than the pattern length and therefore never runs out. -/

/-- Leading-star stripper of `scanChunk`. -/
def dropStars : Str → Str
  | '*' :: t => dropStars t
  | s => s

/-- Scan loop of `scanChunk` after leading stars were stripped: the chunk up
to the next star that is not inside a character class, honoring backslash
escapes, and the remaining pattern. -/
def scanBody (inrange : Bool) : Str → Str × Str
  | [] => ([], [])
  | '\\' :: c :: t =>
    let r := scanBody inrange t
    ('\\' :: c :: r.1, r.2)
  | ['\\'] => (['\\'], [])
  | '[' :: t =>
    let r := scanBody true t
    ('[' :: r.1, r.2)
  | ']' :: t =>
    let r := scanBody false t
    (']' :: r.1, r.2)
  | '*' :: t =>
    if inrange then
      let r := scanBody inrange t
      ('*' :: r.1, r.2)
    else ([], '*' :: t)
  | c :: t =>
    let r := scanBody inrange t
    (c :: r.1, r.2)

/-- Model of `scanChunk`: whether the pattern begins with stars, the first
chunk, and the rest of the pattern. -/
def scanChunk (pat : Str) : Bool × Str × Str :=
  let star : Bool := match pat with
    | '*' :: _ => true
    | _ => false
  let body := scanBody false (dropStars pat)
  (star, body.1, body.2)

/-- Model of `getEsc`: one possibly-escaped character of a character class;
errors on an empty chunk, a leading `-` or `]`, a dangling backslash, or
when nothing follows the parsed character. -/
def getEsc : Str → Except Unit (Char × Str)
  | [] => .error ()
  | '-' :: _ => .error ()
  | ']' :: _ => .error ()
  | '\\' :: t =>
    match t with
    | [] => .error ()
    | c :: r => if r = [] then .error () else .ok (c, r)
  | c :: r => if r = [] then .error () else .ok (c, r)

/-- Range loop of the `[` case of `matchChunk`: parses `lo`/`lo-hi` ranges
until the closing `]`, recording whether the candidate character fell in any
range. -/
def rangesLoop (r : Char) : Nat → Str → Bool → Nat → Except Unit (Bool × Str)
  | 0, _, _, _ => .error ()
  | fuel + 1, chunk, m, nrange =>
    match chunk, nrange with
    | ']' :: rest, _ + 1 => .ok (m, rest)
    | _, _ =>
      match getEsc chunk with
      | .error e => .error e
      | .ok (lo, rest1) =>
        match rest1 with
        | '-' :: rest2 =>
          (match getEsc rest2 with
          | .error e => .error e
          | .ok (hi, rest3) =>
            rangesLoop r fuel rest3 (m || (lo ≤ r && r ≤ hi)) (nrange + 1))
        | _ => rangesLoop r fuel rest1 (m || (lo ≤ r && r ≤ lo)) (nrange + 1)

/-- Model of `matchChunk`: matches one chunk against the head of `s`;
`.ok (some t)` is a successful match leaving `t`, `.ok none` a failed match,
`.error ()` a malformed pattern. -/
def matchChunkAux : Nat → Str → Str → Bool → Except Unit (Option Str)
  | 0, _, _, _ => .error ()
  | _ + 1, [], s, failed => if failed then .ok none else .ok (some s)
  | fuel + 1, c0 :: crest, s, failed0 =>
    let failed := failed0 || s.isEmpty
    match c0 with
    | '[' =>
      let r : Char := if failed then Char.ofNat 0 else s.headD (Char.ofNat 0)
      let s1 := if failed then s else s.tail
      let negated : Bool := match crest with
        | '^' :: _ => true
        | _ => false
      let crest1 := if negated then crest.tail else crest
      (match rangesLoop r (crest1.length + 1) crest1 false 0 with
      | .error e => .error e
      | .ok (m, chunkRest) =>
        matchChunkAux fuel chunkRest s1 (failed || (m == negated)))
    | '?' =>
      if failed then matchChunkAux fuel crest s failed
      else matchChunkAux fuel crest s.tail (failed || (s.headD (Char.ofNat 0) = '/'))
    | '\\' =>
      (match crest with
      | [] => .error ()
      | c1 :: crest2 =>
        if failed then matchChunkAux fuel crest2 s failed
        else matchChunkAux fuel crest2 s.tail (failed || (s.headD (Char.ofNat 0) ≠ c1)))
    | c =>
      if failed then matchChunkAux fuel crest s failed
      else matchChunkAux fuel crest s.tail (failed || (s.headD (Char.ofNat 0) ≠ c))

/-- Entry point of `matchChunk` with enough fuel for its own chunk. -/
def matchChunkF (chunk s : Str) : Except Unit (Option Str) :=
  matchChunkAux (chunk.length + 1) chunk s false

/-- Star loop of `Match`: try to place the chunk at each later position of
the name, never skipping past a `/`; `some t` resumes the outer loop with
the rest `t`. -/
def tryStar (chunk rest : Str) : Str → Except Unit (Option Str)
  | [] => .ok none
  | c :: cs =>
    if c = '/' then .ok none
    else
      match matchChunkF chunk cs with
      | .error e => .error e
      | .ok (some t) =>
        if rest = [] && t ≠ [] then tryStar chunk rest cs else .ok (some t)
      | .ok none => tryStar chunk rest cs

/-- Syntactic check of the remaining pattern performed by `Match` before it
returns a plain mismatch. -/
def chunksValid : Nat → Str → Except Unit Bool
  | 0, _ => .error ()
  | fuel + 1, pat =>
    match pat with
    | [] => .ok false
    | _ =>
      let sc := scanChunk pat
      match matchChunkF sc.2.1 [] with
      | .error e => .error e
      | .ok _ => chunksValid fuel sc.2.2

/-- Outer chunk loop of `path.Match`. -/
def matchLoop : Nat → Str → Str → Except Unit Bool
  | 0, _, _ => .error ()
  | fuel + 1, pat, name =>
    match pat with
    | [] => .ok (decide (name = []))
    | _ =>
      let sc := scanChunk pat
      let star := sc.1
      let chunk := sc.2.1
      let rest := sc.2.2
      if star && chunk.isEmpty then .ok (!name.contains '/')
      else
        match matchChunkF chunk name with
        | .error _ => .error ()
        | .ok res =>
          let continued : Bool := match res with
            | some t => t.isEmpty || !rest.isEmpty
            | none => false
          match res, continued with
          | some t, true => matchLoop fuel rest t
          | _, _ =>
            match (if star then tryStar chunk rest name else .ok none) with
            | .error e => .error e
            | .ok (some t) => matchLoop fuel rest t
            | .ok none => chunksValid (rest.length + 1) rest

/-- Model of `path.Match`: `.error ()` is `ErrBadPattern` (with a `false`
match result, as in the source). -/
def pathMatch (pat name : Str) : Except Unit Bool :=
  matchLoop (pat.length + 1) pat name

/-- The use `validateFilename` makes of `path.Match`: the error is ignored,
an error reports no match. -/
def pathMatchBool (pat name : Str) : Bool :=
  match pathMatch pat name with
  | .ok b => b
  | .error _ => false

/-- Allow-list loop of `validateFilename`: first matching pattern forwards
the request to the next handler, otherwise not-found.  The boolean records
whether the downstream handler was invoked. -/
def validateLoop (next : Str → Response) (urlPath name : Str) :
    List Str → Response × Bool
  | [] => (Response.notFound, false)
  | v :: vs =>
    if pathMatchBool v name then (next urlPath, true)
    else validateLoop next urlPath name vs

/-- Model of `validateFilename` from `main.go`: extracts the final path
segment and forwards the unmodified request exactly when the segment matches
some allow-list pattern. -/
def validateFilename (names : List Str) (next : Str → Response) (urlPath : Str) :
    Response × Bool :=
  validateLoop next urlPath (pathBase urlPath) names

/-! ## Derived vocabulary for the catalog theorems -/

/-- All assets of a feed, releases in feed order, assets in release order. -/
def allAssets : List Release → List Asset
  | [] => []
  | rel :: rest => rel.assets ++ allAssets rest

/-- Whether an asset with the given name occurs anywhere in a feed. -/
def containsName (k : Str) (rels : List Release) : Bool :=
  rels.any (fun rel => rel.assets.any (fun a => a.name = k))

/-- The last asset with the given name in an asset list, if any. -/
def lastNamed (k : Str) : List Asset → Option Asset
  | [] => none
  | a :: t =>
    match lastNamed k t with
    | some b => some b
    | none => if a.name = k then some a else none

/-- The last asset with the given name in a feed's order, if any. -/
def lastAssetNamed (k : Str) (rels : List Release) : Option Asset :=
  lastNamed k (allAssets rels)

/-- The sole element of a one-element list, `none` otherwise. -/
def soleElem {α : Type} : List α → Option α
  | [x] => some x
  | _ => none

/-- The feed that alone carries an asset name, when exactly one feed of the
cycle does. -/
def soleFeedFor (k : Str) (feeds : List (List Release)) : Option (List Release) :=
  soleElem (feeds.filter (fun rels => containsName k rels))

/-- The per-feed asset map that alone carries a key, when exactly one map of
the cycle does. -/
def soleMapFor (k : Str) (ms : List AssetMap) : Option AssetMap :=
  soleElem (ms.filter (fun m => (m.find k).isSome))

/-- Number of releases, across all feeds of one cycle, that carry an asset
with the given name. -/
def releasesContaining (k : Str) (feeds : List (List Release)) : Nat :=
  feeds.foldl (fun n rels => n + rels.countP (fun rel => rel.assets.any (fun a => a.name = k))) 0

/-- Collision-exclusion reading of claim C1: a name occurring in two or more
releases of one build cycle is absent from the resulting catalog. -/
def claimReleaseExclusion : Prop :=
  ∀ (feeds : List (List Release)) (k : Str),
    2 ≤ releasesContaining k feeds → (buildCatalog feeds).find k = none

/-! ## Lock-discipline model for snapshot atomicity

`ServeHTTP` performs its two catalog lookups inside one `r.mut.Lock()` /
`Unlock()` critical section, and `Serve` swaps the whole published map inside
the same mutex.  The model below is the interleaving semantics of one request
(reader) and one refresh publication (writer): each line of the two critical
sections is an atomic event, and an event is enabled only when the program
order and the mutex allow it. -/

/-- Who currently holds `r.mut`. -/
inductive LockOwner where
  | reader
  | writer
deriving DecidableEq

/-- Program counter of the request handler inside `ServeHTTP`. -/
inductive RPhase where
  | rIdle
  | rLocked
  | rGotFirst
  | rGotSecond
  | rDone
deriving DecidableEq

/-- Program counter of the refresher inside `Serve`'s publication step. -/
inductive WPhase where
  | wIdle
  | wLocked
  | wWrote
  | wDone
deriving DecidableEq

/-- Atomic events of the two critical sections. -/
inductive SysEvent where
  | rLock
  | rLookupDirect
  | rLookupTilde
  | rUnlock
  | wLock
  | wSwap
  | wUnlock
deriving DecidableEq

/-- Shared-memory state: the mutex, the published catalog pointer, both
program counters, and the snapshot each of the reader's two lookups was
evaluated against. -/
structure SysState where
  lock : Option LockOwner
  published : AssetMap
  rpc : RPhase
  wpc : WPhase
  firstMap : Option AssetMap
  secondMap : Option AssetMap
deriving DecidableEq

/-- Initial state: catalog `m0` published, both tasks before their critical
sections. -/
def initSys (m0 : AssetMap) : SysState :=
  ⟨none, m0, RPhase.rIdle, WPhase.wIdle, none, none⟩

/-- One atomic event; `none` when the event is not enabled (wrong program
point, or the mutex is busy). -/
def sysStep (nm : AssetMap) (s : SysState) : SysEvent → Option SysState
  | .rLock =>
    if s.rpc = RPhase.rIdle ∧ s.lock = none then
      some { s with lock := some LockOwner.reader, rpc := RPhase.rLocked }
    else none
  | .rLookupDirect =>
    if s.rpc = RPhase.rLocked then
      some { s with firstMap := some s.published, rpc := RPhase.rGotFirst }
    else none
  | .rLookupTilde =>
    if s.rpc = RPhase.rGotFirst then
      some { s with secondMap := some s.published, rpc := RPhase.rGotSecond }
    else none
  | .rUnlock =>
    if s.rpc = RPhase.rGotSecond then
      some { s with lock := none, rpc := RPhase.rDone }
    else none
  | .wLock =>
    if s.wpc = WPhase.wIdle ∧ s.lock = none then
      some { s with lock := some LockOwner.writer, wpc := WPhase.wLocked }
    else none
  | .wSwap =>
    if s.wpc = WPhase.wLocked then
      some { s with published := nm, wpc := WPhase.wWrote }
    else none
  | .wUnlock =>
    if s.wpc = WPhase.wWrote then
      some { s with lock := none, wpc := WPhase.wDone }
    else none

/-- Run of an event schedule; `none` when some event was not enabled. -/
def sysRun (nm : AssetMap) (s : SysState) : List SysEvent → Option SysState
  | [] => some s
  | e :: es =>
    match sysStep nm s e with
    | none => none
    | some s1 => sysRun nm s1 es

/-- Invariant of the lock discipline: the published pointer is always one of
the two generations, a task at an in-section program point holds the mutex,
and the reader's recorded snapshots agree with the published map it read. -/
def SysInv (m0 nm : AssetMap) (s : SysState) : Prop :=
  (s.published = m0 ∨ s.published = nm) ∧
  ((s.rpc = RPhase.rLocked ∨ s.rpc = RPhase.rGotFirst ∨ s.rpc = RPhase.rGotSecond) →
    s.lock = some LockOwner.reader) ∧
  ((s.wpc = WPhase.wLocked ∨ s.wpc = WPhase.wWrote) → s.lock = some LockOwner.writer) ∧
  (s.rpc = RPhase.rGotFirst → s.firstMap = some s.published) ∧
  (s.secondMap ≠ none → s.secondMap = s.firstMap) ∧
  (s.firstMap = none ∨ s.firstMap = some m0 ∨ s.firstMap = some nm) ∧
  ((s.rpc = RPhase.rIdle ∨ s.rpc = RPhase.rLocked) → s.secondMap = none)

/-! ## Concrete data for witnesses and counterexamples -/

/-- Sample catalog asset matching the spec's end-to-end scenario. -/
def fooAsset : Asset :=
  ⟨"foo_1.0.deb".toList, "https://cdn/foo_1.0.deb".toList, 7⟩

/-- Sample asset whose name carries a literal dot where requests carry `~`. -/
def fooDotAsset : Asset :=
  ⟨"foo.bar.deb".toList, "https://cdn/foo.bar.deb".toList, 3⟩

/-- First of two same-named assets in two releases of one feed. -/
def dupAsset1 : Asset := ⟨"a.deb".toList, "u1".toList, 1⟩

/-- Second of two same-named assets in two releases of one feed. -/
def dupAsset2 : Asset := ⟨"a.deb".toList, "u2".toList, 2⟩

/-- An asset with an unrelated name. -/
def otherAsset : Asset := ⟨"c.deb".toList, "u3".toList, 3⟩

/-- Release carrying `dupAsset1`. -/
def dupRelease1 : Release := ⟨"v1".toList, [dupAsset1]⟩

/-- Release carrying `dupAsset2`. -/
def dupRelease2 : Release := ⟨"v2".toList, [dupAsset2]⟩

/-- Release carrying only the unrelated asset. -/
def otherRelease : Release := ⟨"v3".toList, [otherAsset]⟩

/-- Sample published catalog holding `fooAsset` under its own name. -/
def fooCatalog : AssetMap := [(fooAsset.name, fooAsset)]

/-- Sample published catalog holding `fooDotAsset` under its dotted name. -/
def fooDotCatalog : AssetMap := [(fooDotAsset.name, fooDotAsset)]

/-! ## Basic catalog-map lemmas -/

theorem AssetMap.find_insert_self (m : AssetMap) (k : Str) (v : Asset) :
    (m.insert k v).find k = some v := by
  induction m with
  | nil => simp [AssetMap.insert, AssetMap.find]
  | cons kv t ih =>
    obtain ⟨k0, v0⟩ := kv
    by_cases h : k0 = k <;> simp [AssetMap.insert, AssetMap.find, h, ih]

theorem AssetMap.find_insert_ne (m : AssetMap) (k1 k : Str) (v : Asset) (h : k1 ≠ k) :
    (m.insert k1 v).find k = m.find k := by
  induction m with
  | nil => simp [AssetMap.insert, AssetMap.find, h]
  | cons kv t ih =>
    obtain ⟨k0, v0⟩ := kv
    by_cases h0 : k0 = k1
    · subst h0
      simp [AssetMap.insert, AssetMap.find, h]
    · simp [AssetMap.insert, AssetMap.find, h0, ih]

theorem AssetMap.find_erase_self (m : AssetMap) (k : Str) :
    (m.erase k).find k = none := by
  induction m with
  | nil => simp [AssetMap.erase, AssetMap.find]
  | cons kv t ih =>
    obtain ⟨k0, v0⟩ := kv
    by_cases h : k0 = k <;>
      simp_all [AssetMap.erase, AssetMap.find, List.filter_cons]

theorem AssetMap.find_erase_ne (m : AssetMap) (k1 k : Str) (h : k1 ≠ k) :
    (m.erase k1).find k = m.find k := by
  induction m with
  | nil => simp [AssetMap.erase, AssetMap.find]
  | cons kv t ih =>
    obtain ⟨k0, v0⟩ := kv
    by_cases h0 : k0 = k1
    · subst h0
      by_cases hk : k0 = k
      · exact absurd hk h
      · simp_all [AssetMap.erase, AssetMap.find, List.filter_cons]
    · by_cases hk : k0 = k <;>
        simp_all [AssetMap.erase, AssetMap.find, List.filter_cons]

theorem AssetMap.insert_cons_self (t : AssetMap) (k0 : Str) (v0 v : Asset) :
    AssetMap.insert ((k0, v0) :: t) k0 v = (k0, v) :: t := by
  simp [AssetMap.insert]

theorem AssetMap.insert_cons_ne (t : AssetMap) (k0 k : Str) (v0 v : Asset)
    (h : k0 ≠ k) :
    AssetMap.insert ((k0, v0) :: t) k v = (k0, v0) :: AssetMap.insert t k v := by
  simp [AssetMap.insert, h]

theorem AssetMap.keys_nil : AssetMap.keys [] = [] := rfl

theorem AssetMap.keys_cons (kv : Str × Asset) (t : AssetMap) :
    AssetMap.keys (kv :: t) = kv.1 :: t.keys := rfl

theorem AssetMap.mem_keys_insert (m : AssetMap) (k : Str) (v : Asset) (x : Str) :
    x ∈ (m.insert k v).keys ↔ x ∈ m.keys ∨ x = k := by
  induction m with
  | nil => simp [AssetMap.insert, AssetMap.keys_cons, AssetMap.keys_nil]
  | cons kv t ih =>
    obtain ⟨k0, v0⟩ := kv
    by_cases h0 : k0 = k
    · subst h0
      rw [AssetMap.insert_cons_self, AssetMap.keys_cons, AssetMap.keys_cons]
      simp only [List.mem_cons]
      tauto
    · rw [AssetMap.insert_cons_ne _ _ _ _ _ h0, AssetMap.keys_cons, AssetMap.keys_cons]
      simp only [List.mem_cons, ih]
      tauto

theorem AssetMap.nodup_keys_insert (m : AssetMap) (k : Str) (v : Asset)
    (h : m.keys.Nodup) : (m.insert k v).keys.Nodup := by
  induction m with
  | nil => simp [AssetMap.insert, AssetMap.keys_cons, AssetMap.keys_nil]
  | cons kv t ih =>
    obtain ⟨k0, v0⟩ := kv
    rw [AssetMap.keys_cons, List.nodup_cons] at h
    by_cases h0 : k0 = k
    · subst h0
      rw [AssetMap.insert_cons_self, AssetMap.keys_cons, List.nodup_cons]
      exact h
    · have hx : k0 ∉ (AssetMap.insert t k v).keys := by
        rw [AssetMap.mem_keys_insert]
        push_neg
        exact ⟨h.1, h0⟩
      rw [AssetMap.insert_cons_ne _ _ _ _ _ h0, AssetMap.keys_cons, List.nodup_cons]
      exact ⟨hx, ih h.2⟩

theorem nodup_keys_foldl_insert (l : List Asset) (m : AssetMap)
    (h : m.keys.Nodup) :
    ((l.foldl (fun m a => m.insert a.name a) m).keys).Nodup := by
  induction l generalizing m with
  | nil => exact h
  | cons a t ih => exact ih _ (AssetMap.nodup_keys_insert _ _ _ h)

theorem foldl_insert_allAssets (rels : List Release) (m : AssetMap) :
    rels.foldl (fun m rel => rel.assets.foldl (fun m a => m.insert a.name a) m) m
      = (allAssets rels).foldl (fun m a => m.insert a.name a) m := by
  induction rels generalizing m with
  | nil => rfl
  | cons rel t ih => simp [allAssets, List.foldl_append, ih]

theorem fetchedAssets_nodup (rels : List Release) :
    (fetchedAssets rels).keys.Nodup := by
  unfold fetchedAssets
  rw [foldl_insert_allAssets]
  exact nodup_keys_foldl_insert _ _ (by simp [AssetMap.keys])

theorem find_foldl_insert (l : List Asset) (m : AssetMap) (k : Str) :
    ((l.foldl (fun m a => m.insert a.name a) m).find k) =
      match lastNamed k l with
      | some a => some a
      | none => m.find k := by
  induction l generalizing m with
  | nil => simp [lastNamed]
  | cons a t ih =>
    simp only [List.foldl_cons, ih, lastNamed]
    by_cases h : a.name = k
    · cases hl : lastNamed k t <;>
        simp [hl, h, h ▸ AssetMap.find_insert_self m a.name a]
    · cases hl : lastNamed k t <;>
        simp [hl, h, AssetMap.find_insert_ne _ _ _ _ h]

theorem fetchedAssets_find (rels : List Release) (k : Str) :
    (fetchedAssets rels).find k = lastAssetNamed k rels := by
  unfold fetchedAssets lastAssetNamed
  rw [foldl_insert_allAssets, find_foldl_insert]
  cases lastNamed k (allAssets rels) <;> simp [AssetMap.find]

theorem lastNamed_isSome (k : Str) (l : List Asset) :
    (lastNamed k l).isSome = l.any (fun a => a.name = k) := by
  induction l with
  | nil => simp [lastNamed]
  | cons a t ih =>
    cases hl : lastNamed k t with
    | none =>
      rw [hl] at ih
      by_cases h : a.name = k <;>
        simp [lastNamed, hl, h, List.any_cons, ← ih]
    | some b =>
      rw [hl] at ih
      simp [lastNamed, hl, List.any_cons, ← ih]

theorem allAssets_any (rels : List Release) (p : Asset → Bool) :
    (allAssets rels).any p = rels.any (fun rel => rel.assets.any p) := by
  induction rels with
  | nil => simp [allAssets]
  | cons rel t ih => simp [allAssets, List.any_append, ih]

theorem fetchedAssets_find_isSome (rels : List Release) (k : Str) :
    ((fetchedAssets rels).find k).isSome = containsName k rels := by
  rw [fetchedAssets_find]
  unfold lastAssetNamed containsName
  rw [lastNamed_isSome, allAssets_any]

theorem AssetMap.find_nil (k : Str) : AssetMap.find [] k = none := rfl

theorem AssetMap.find_cons (k0 : Str) (v0 : Asset) (t : AssetMap) (k : Str) :
    AssetMap.find ((k0, v0) :: t) k = if k0 = k then some v0 else t.find k := rfl

theorem AssetMap.find_eq_none_iff (m : AssetMap) (k : Str) :
    m.find k = none ↔ ∀ kv ∈ m, kv.1 ≠ k := by
  induction m with
  | nil => simp [AssetMap.find_nil]
  | cons kv t ih =>
    obtain ⟨k0, v0⟩ := kv
    by_cases h : k0 = k <;> simp [AssetMap.find_cons, h, ih]

theorem AssetMap.mem_keys_iff (m : AssetMap) (x : Str) :
    x ∈ m.keys ↔ ∃ kv ∈ m, kv.1 = x := by
  simp [AssetMap.keys]

/-! ## Merge-loop lemmas -/

theorem mergeEntry_find_ne (st : MergeState) (kv : Str × Asset) (k : Str)
    (h : kv.1 ≠ k) :
    (mergeEntry st kv).newAssets.find k = st.newAssets.find k := by
  unfold mergeEntry
  split_ifs <;>
    simp [AssetMap.find_erase_ne _ _ _ h, AssetMap.find_insert_ne _ _ _ _ h]

theorem mergeEntry_mem_ne (st : MergeState) (kv : Str × Asset) (k : Str)
    (h : kv.1 ≠ k) :
    (k ∈ (mergeEntry st kv).nonUnique ↔ k ∈ st.nonUnique) := by
  unfold mergeEntry
  split_ifs <;> simp [List.mem_cons, Ne.symm h]

theorem mergeFeed_cons (st : MergeState) (kv : Str × Asset) (t : AssetMap) :
    mergeFeed st (kv :: t) = mergeFeed (mergeEntry st kv) t := rfl

theorem mergeFeed_untouched (m : AssetMap) (k : Str)
    (h : ∀ kv ∈ m, kv.1 ≠ k) (st : MergeState) :
    (mergeFeed st m).newAssets.find k = st.newAssets.find k ∧
    (k ∈ (mergeFeed st m).nonUnique ↔ k ∈ st.nonUnique) := by
  induction m generalizing st with
  | nil => exact ⟨rfl, Iff.rfl⟩
  | cons kv t ih =>
    have hk : kv.1 ≠ k := h kv (by simp)
    have ht : ∀ kv2 ∈ t, kv2.1 ≠ k := fun kv2 h2 => h kv2 (by simp [h2])
    rw [mergeFeed_cons]
    obtain ⟨e1, e2⟩ := ih ht (mergeEntry st kv)
    exact ⟨e1.trans (mergeEntry_find_ne st kv k hk),
      e2.trans (mergeEntry_mem_ne st kv k hk)⟩

theorem mergeFeed_resolved (m : AssetMap) (k : Str) (v : Asset) :
    m.keys.Nodup → m.find k = some v → ∀ st : MergeState,
    (k ∈ st.nonUnique →
      ((mergeFeed st m).newAssets.find k = st.newAssets.find k ∧
        k ∈ (mergeFeed st m).nonUnique)) ∧
    (k ∉ st.nonUnique → (st.newAssets.find k).isSome = true →
      ((mergeFeed st m).newAssets.find k = none ∧
        k ∈ (mergeFeed st m).nonUnique)) ∧
    (k ∉ st.nonUnique → st.newAssets.find k = none →
      ((mergeFeed st m).newAssets.find k = some v ∧
        k ∉ (mergeFeed st m).nonUnique)) := by
  induction m with
  | nil =>
    intro _ h
    simp [AssetMap.find_nil] at h
  | cons kv t ih =>
    intro hd h st
    obtain ⟨k0, v0⟩ := kv
    rw [AssetMap.keys_cons, List.nodup_cons] at hd
    by_cases h0 : k0 = k
    · subst h0
      have hv : v0 = v := by
        rw [AssetMap.find_cons, if_pos rfl] at h
        exact Option.some.inj h
      subst hv
      have ht : ∀ kv2 ∈ t, kv2.1 ≠ k0 := by
        intro kv2 h2 heq
        exact hd.1 ((AssetMap.mem_keys_iff t k0).mpr ⟨kv2, h2, heq⟩)
      rw [mergeFeed_cons]
      refine ⟨?_, ?_, ?_⟩
      · intro hmem
        have hme : mergeEntry st (k0, v0) = st := by simp [mergeEntry, hmem]
        rw [hme]
        have e := mergeFeed_untouched t k0 ht st
        exact ⟨e.1, e.2.mpr hmem⟩
      · intro hmem hsome
        have hme : mergeEntry st (k0, v0) =
            ⟨st.newAssets.erase k0, k0 :: st.nonUnique⟩ := by
          simp [mergeEntry, hmem, hsome]
        rw [hme]
        have e := mergeFeed_untouched t k0 ht
          ⟨st.newAssets.erase k0, k0 :: st.nonUnique⟩
        refine ⟨?_, e.2.mpr (by simp)⟩
        rw [e.1]
        exact AssetMap.find_erase_self _ _
      · intro hmem hnone
        have hme : mergeEntry st (k0, v0) =
            ⟨st.newAssets.insert k0 v0, st.nonUnique⟩ := by
          simp [mergeEntry, hmem, hnone]
        rw [hme]
        have e := mergeFeed_untouched t k0 ht
          ⟨st.newAssets.insert k0 v0, st.nonUnique⟩
        refine ⟨?_, fun hmem2 => hmem (e.2.mp hmem2)⟩
        rw [e.1]
        exact AssetMap.find_insert_self _ _ _
    · have hft : AssetMap.find t k = some v := by
        rw [AssetMap.find_cons, if_neg h0] at h
        exact h
      rw [mergeFeed_cons]
      have IH := ih hd.2 hft (mergeEntry st (k0, v0))
      have ffind := mergeEntry_find_ne st (k0, v0) k h0
      have fmem := mergeEntry_mem_ne st (k0, v0) k h0
      refine ⟨?_, ?_, ?_⟩
      · intro hmem
        obtain ⟨a, b⟩ := IH.1 (fmem.mpr hmem)
        exact ⟨a.trans ffind, b⟩
      · intro hmem hsome
        exact IH.2.1 (fun hx => hmem (fmem.mp hx)) (by rw [ffind]; exact hsome)
      · intro hmem hnone
        exact IH.2.2 (fun hx => hmem (fmem.mp hx)) (by rw [ffind]; exact hnone)

theorem soleElem_nil {α : Type} : soleElem ([] : List α) = none := rfl

theorem soleElem_single {α : Type} (x : α) : soleElem [x] = some x := rfl

theorem soleElem_cons_cons {α : Type} (x y : α) (t : List α) :
    soleElem (x :: y :: t) = none := rfl

theorem mergeAll_char (ms : List AssetMap) (k : Str) :
    (∀ m ∈ ms, m.keys.Nodup) →
    (k ∈ (ms.foldl mergeFeed ⟨[], []⟩).nonUnique ↔
      2 ≤ ms.countP (fun m => (AssetMap.find m k).isSome)) ∧
    (ms.foldl mergeFeed ⟨[], []⟩).newAssets.find k =
      (soleMapFor k ms).bind (fun m => AssetMap.find m k) := by
  induction ms using List.reverseRecOn with
  | nil =>
    intro _
    constructor
    · simp [List.countP_nil]
    · simp [AssetMap.find_nil, soleMapFor, soleElem_nil]
  | append_singleton ms m ih =>
    intro hms
    have hmsms : ∀ x ∈ ms, AssetMap.keys x |>.Nodup := fun x hx => hms x (by simp [hx])
    have hmm : m.keys.Nodup := hms m (by simp)
    obtain ⟨ih1, ih2⟩ := ih hmsms
    rw [List.foldl_append, List.foldl_cons, List.foldl_nil]
    rcases hfind : AssetMap.find m k with _ | v
    · have hall : ∀ kv ∈ m, kv.1 ≠ k := (AssetMap.find_eq_none_iff m k).mp hfind
      obtain ⟨u1, u2⟩ := mergeFeed_untouched m k hall (ms.foldl mergeFeed ⟨[], []⟩)
      have hcnt : (ms ++ [m]).countP (fun m2 => (AssetMap.find m2 k).isSome)
          = ms.countP (fun m2 => (AssetMap.find m2 k).isSome) := by
        simp [List.countP_append, List.countP_cons, hfind]
      have hsole : soleMapFor k (ms ++ [m]) = soleMapFor k ms := by
        simp [soleMapFor, List.filter_append, List.filter_cons, hfind]
      rw [hcnt, hsole, u1, u2]
      exact ⟨ih1, ih2⟩
    · have hsome : (AssetMap.find m k).isSome = true := by rw [hfind]; rfl
      have R := mergeFeed_resolved m k v hmm hfind (ms.foldl mergeFeed ⟨[], []⟩)
      have hcnt : (ms ++ [m]).countP (fun m2 => (AssetMap.find m2 k).isSome)
          = ms.countP (fun m2 => (AssetMap.find m2 k).isSome) + 1 := by
        simp [List.countP_append, List.countP_cons, hsome]
      have hfilt : (ms ++ [m]).filter (fun m2 => (AssetMap.find m2 k).isSome)
          = ms.filter (fun m2 => (AssetMap.find m2 k).isSome) ++ [m] := by
        simp [List.filter_append, List.filter_cons, hsome]
      rcases hfl : ms.filter (fun m2 => (AssetMap.find m2 k).isSome) with _ | ⟨m1, tl⟩
      · have hc0 : ms.countP (fun m2 => (AssetMap.find m2 k).isSome) = 0 := by
          rw [List.countP_eq_length_filter, hfl]
          rfl
        have hmem : k ∉ (ms.foldl mergeFeed ⟨[], []⟩).nonUnique := by
          rw [ih1, hc0]
          omega
        have hfnone : (ms.foldl mergeFeed ⟨[], []⟩).newAssets.find k = none := by
          rw [ih2]
          simp [soleMapFor, hfl, soleElem_nil]
        obtain ⟨a, b⟩ := R.2.2 hmem hfnone
        constructor
        · rw [hcnt, hc0]
          exact iff_of_false b (by omega)
        · rw [a]
          rw [show soleMapFor k (ms ++ [m]) = some m from by
            simp [soleMapFor, hfilt, hfl, soleElem_single]]
          simp [hfind]
      · rcases tl with _ | ⟨m2, tl2⟩
        · have hc1 : ms.countP (fun m2 => (AssetMap.find m2 k).isSome) = 1 := by
            rw [List.countP_eq_length_filter, hfl]
            rfl
          have hmem : k ∉ (ms.foldl mergeFeed ⟨[], []⟩).nonUnique := by
            rw [ih1, hc1]
            omega
          have hm1some : (AssetMap.find m1 k).isSome = true := by
            have : m1 ∈ ms.filter (fun m2 => (AssetMap.find m2 k).isSome) := by
              rw [hfl]
              simp
            exact (List.mem_filter.mp this).2
          have hfsome : ((ms.foldl mergeFeed ⟨[], []⟩).newAssets.find k).isSome = true := by
            rw [ih2]
            simpa [soleMapFor, hfl, soleElem_single] using hm1some
          obtain ⟨a, b⟩ := R.2.1 hmem hfsome
          constructor
          · rw [hcnt, hc1]
            exact iff_of_true b (by omega)
          · rw [a]
            rw [show soleMapFor k (ms ++ [m]) = none from by
              simp [soleMapFor, hfilt, hfl, soleElem_cons_cons]]
            rfl
        · have hc2 : 2 ≤ ms.countP (fun m2 => (AssetMap.find m2 k).isSome) := by
            rw [List.countP_eq_length_filter, hfl]
            simp
          have hmem : k ∈ (ms.foldl mergeFeed ⟨[], []⟩).nonUnique := ih1.mpr hc2
          obtain ⟨a, b⟩ := R.1 hmem
          constructor
          · rw [hcnt]
            exact iff_of_true b (by omega)
          · rw [a, ih2]
            rw [show soleMapFor k ms = none from by
              simp [soleMapFor, hfl, soleElem_cons_cons]]
            rw [show soleMapFor k (ms ++ [m]) = none from by
              simp [soleMapFor, hfilt, hfl, soleElem_cons_cons]]

theorem buildCatalog_eq_foldl (feeds : List (List Release)) :
    buildCatalog feeds = ((feeds.map fetchedAssets).foldl mergeFeed ⟨[], []⟩).newAssets := by
  unfold buildCatalog
  rw [List.foldl_map]

theorem filter_map_assets (feeds : List (List Release)) (k : Str) :
    (feeds.map fetchedAssets).filter (fun m => (AssetMap.find m k).isSome)
      = (feeds.filter (fun rels => containsName k rels)).map fetchedAssets := by
  induction feeds with
  | nil => rfl
  | cons f t ih =>
    simp only [List.map_cons, List.filter_cons, fetchedAssets_find_isSome]
    by_cases h : containsName k f <;> simp [h, ih]

theorem buildCatalog_find (feeds : List (List Release)) (k : Str) :
    (buildCatalog feeds).find k
      = (soleFeedFor k feeds).bind (fun rels => lastAssetNamed k rels) := by
  have hnd : ∀ m ∈ feeds.map fetchedAssets, AssetMap.keys m |>.Nodup := by
    intro m hm
    obtain ⟨rels, _, rfl⟩ := List.mem_map.mp hm
    exact fetchedAssets_nodup rels
  have h := (mergeAll_char (feeds.map fetchedAssets) k hnd).2
  rw [buildCatalog_eq_foldl, h]
  unfold soleMapFor soleFeedFor
  rw [filter_map_assets]
  rcases hfl : feeds.filter (fun rels => containsName k rels) with _ | ⟨r1, tl⟩
  · rfl
  · rcases tl with _ | ⟨r2, tl2⟩
    · simp [soleElem_single, fetchedAssets_find]
    · rfl

theorem buildCatalog_find_perm (feeds feeds2 : List (List Release)) (k : Str)
    (hp : feeds.Perm feeds2) :
    (buildCatalog feeds).find k = (buildCatalog feeds2).find k := by
  rw [buildCatalog_find, buildCatalog_find]
  have hperm := hp.filter (fun rels => containsName k rels)
  unfold soleFeedFor
  rcases hfl : feeds.filter (fun rels => containsName k rels) with _ | ⟨r1, tl⟩
  · rw [hfl] at hperm
    rw [List.perm_nil.mp hperm.symm]
  · rcases tl with _ | ⟨r2, tl2⟩
    · rw [hfl] at hperm
      rw [List.singleton_perm.mp hperm]
    · rw [hfl] at hperm
      have hlen := hperm.length_eq
      rcases hfl2 : feeds2.filter (fun rels => containsName k rels) with _ | ⟨s1, sl⟩
      · rw [hfl2] at hlen
        simp at hlen
      · rcases sl with _ | ⟨s2, sl2⟩
        · rw [hfl2] at hlen
          simp at hlen
        · rfl

theorem lastAssetNamed_eq_none (k : Str) (rels : List Release)
    (h : containsName k rels = false) : lastAssetNamed k rels = none := by
  have hs := fetchedAssets_find_isSome rels k
  rw [fetchedAssets_find, h] at hs
  cases hl : lastAssetNamed k rels
  · rfl
  · rw [hl] at hs
    simp at hs

theorem soleFeedFor_append (k : Str) (pre post : List (List Release))
    (feed : List Release)
    (h1 : ∀ rels ∈ pre, containsName k rels = false)
    (h2 : ∀ rels ∈ post, containsName k rels = false) :
    soleFeedFor k (pre ++ feed :: post)
      = if containsName k feed then some feed else none := by
  unfold soleFeedFor
  have hpre : pre.filter (fun rels => containsName k rels) = [] := by
    rw [List.filter_eq_nil_iff]
    intro a ha
    simp [h1 a ha]
  have hpost : post.filter (fun rels => containsName k rels) = [] := by
    rw [List.filter_eq_nil_iff]
    intro a ha
    simp [h2 a ha]
  rw [List.filter_append, List.filter_cons, hpre, hpost]
  by_cases h : containsName k feed <;> simp [h, soleElem_single, soleElem_nil]

/-! ## Compatibility-heuristic lemmas -/

theorem buggyAPTVersion_iff (ua : Str) :
    buggyAPTVersion ua = true ↔ buggyDecisionTable ua := by
  constructor
  · intro h
    unfold buggyAPTVersion at h
    rcases hf : goFields ua with _ | ⟨f0, _ | ⟨f1, _ | ⟨f2, fs⟩⟩⟩ <;>
      simp only [hf] at h
    · exact absurd h (by simp)
    · exact absurd h (by simp)
    · exact absurd h (by simp)
    · by_cases hD : f0 = "Debian".toList
      · cases hP : "APT-HTTP".toList.isPrefixOf f1 with
        | false =>
          rw [if_pos (by simp; exact Or.inr hP)] at h
          exact absurd h (by simp)
        | true =>
          have hcond : (decide (f0 ≠ "Debian".toList)
              || !("APT-HTTP".toList.isPrefixOf f1)) = false := by
            rw [hP]
            simp [hD]
          rw [if_neg (by rw [hcond]; simp)] at h
          rcases hs : goSplit '.' (goTrim f2 ['(', ')']) with _ | ⟨p0, _ | ⟨p1, ps⟩⟩ <;>
            simp only [hs] at h
          · exact absurd h (by simp)
          · exact absurd h (by simp)
          · rcases hp0 : parseInt32 p0 with _ | maj <;> simp only [hp0] at h
            · exact absurd h (by simp)
            · refine ⟨f0, f1, f2, fs, hf, hD, hP, p0, p1, ps, hs, maj, hp0, ?_⟩
              by_cases h1 : maj < 2
              · exact Or.inl h1
              · rw [if_neg h1] at h
                by_cases h2 : maj > 2
                · rw [if_pos h2] at h
                  exact absurd h (by simp)
                · rw [if_neg h2] at h
                  rcases hp1 : parseInt32 p1 with _ | mi <;> simp only [hp1] at h
                  · exact absurd h (by simp)
                  · exact Or.inr ⟨by omega, mi, rfl, by simpa using h⟩
      · rw [if_pos (by simp; exact Or.inl hD)] at h
        exact absurd h (by simp)
  · rintro ⟨f0, f1, f2, fs, hf, hD, hP, p0, p1, ps, hs, maj, hp0, hdis⟩
    unfold buggyAPTVersion
    simp only [hf]
    have hcond : (decide (f0 ≠ "Debian".toList)
        || !("APT-HTTP".toList.isPrefixOf f1)) = false := by
      rw [hP]
      simp [hD]
    rw [if_neg (by rw [hcond]; simp)]
    simp only [hs, hp0]
    rcases hdis with h1 | ⟨h2, mi, hp1, hm⟩
    · rw [if_pos h1]
    · subst h2
      rw [if_neg (by omega), if_neg (by omega)]
      simp only [hp1]
      simpa using hm

/-! ## Dispatcher lemmas -/

theorem serveHTTP_eq_decision (assets : AssetMap) (p ua : Str) :
    serveHTTP assets p ua = redirectDecision assets (candidateName p) ua := rfl

theorem resolveAsset_of_find_none (m : AssetMap) (file : Str)
    (h : m.find file = none) :
    resolveAsset m file = m.find (replaceFirst file '~' '.') := by
  unfold resolveAsset
  rw [h]

theorem replaceFirst_no_tilde (s : Str) (h : '~' ∉ s) :
    replaceFirst s '~' '.' = s := by
  induction s with
  | nil => rfl
  | cons c t ih =>
    have hc : c ≠ '~' := fun he => h (by simp [he])
    have ht : '~' ∉ t := fun he => h (by simp [he])
    simp [replaceFirst, hc, ih ht]

theorem replaceFirst_split (pre post : Str) (h : '~' ∉ pre) :
    replaceFirst (pre ++ '~' :: post) '~' '.' = pre ++ '.' :: post := by
  induction pre with
  | nil => simp [replaceFirst]
  | cons c t ih =>
    have hc : c ≠ '~' := fun he => h (by simp [he])
    have ht : '~' ∉ t := fun he => h (by simp [he])
    simp [replaceFirst, hc, ih ht]

/-! ## Filename-filter lemmas -/

theorem validateLoop_eq_any (next : Str → Response) (p name : Str)
    (names : List Str) :
    validateLoop next p name names =
      if names.any (fun v => pathMatchBool v name) then (next p, true)
      else (Response.notFound, false) := by
  induction names with
  | nil => simp [validateLoop]
  | cons v vs ih =>
    by_cases h : pathMatchBool v name = true
    · simp [validateLoop, h, List.any_cons]
    · rw [Bool.not_eq_true] at h
      simp [validateLoop, h, List.any_cons, ih]

theorem any_of_perm {α : Type} (l l2 : List α) (f : α → Bool)
    (h : l.Perm l2) : l.any f = l2.any f := by
  by_cases hl : l.any f = true
  · obtain ⟨x, hx, hfx⟩ := List.any_eq_true.mp hl
    rw [hl]
    exact (List.any_eq_true.mpr ⟨x, h.mem_iff.mp hx, hfx⟩).symm
  · have hl2 : l2.any f ≠ true := fun hc => by
      obtain ⟨x, hx, hfx⟩ := List.any_eq_true.mp hc
      exact hl (List.any_eq_true.mpr ⟨x, h.mem_iff.mpr hx, hfx⟩)
    have hl3 : l.any f = false := by simpa using hl
    have hl4 : l2.any f = false := by simpa using hl2
    rw [hl3, hl4]

/-! ## Refresher lemmas -/

theorem serveBuild_error (pre : List FetchResult) (e : Str)
    (post : List FetchResult)
    (hpre : ∀ f ∈ pre, ∃ rels, f = Except.ok rels) :
    ∀ st : MergeState,
      serveBuild st (pre ++ Except.error e :: post) = Except.error e := by
  induction pre with
  | nil => intro st; rfl
  | cons f t ih =>
    intro st
    obtain ⟨rels, rfl⟩ := hpre f (by simp)
    have ht : ∀ f2 ∈ t, ∃ rels2, f2 = Except.ok rels2 :=
      fun f2 h2 => hpre f2 (by simp [h2])
    simpa [serveBuild] using ih ht _

theorem serveBuild_ok (feeds : List (List Release)) :
    ∀ st : MergeState,
      serveBuild st (feeds.map Except.ok)
        = Except.ok (feeds.foldl (fun st rels => mergeFeed st (fetchedAssets rels)) st).newAssets := by
  induction feeds with
  | nil => intro st; rfl
  | cons f t ih =>
    intro st
    simpa [serveBuild] using ih _

theorem serveOnce_map_ok (feeds : List (List Release)) :
    serveOnce (feeds.map Except.ok) = Except.ok (buildCatalog feeds) := by
  unfold serveOnce buildCatalog
  exact serveBuild_ok feeds _

/-! ## Lock-discipline invariant -/

theorem sysInv_init (m0 nm : AssetMap) : SysInv m0 nm (initSys m0) := by
  refine ⟨Or.inl rfl, ?_, ?_, ?_, ?_, Or.inl rfl, fun _ => rfl⟩
  · rintro (h | h | h) <;> simp [initSys] at h
  · rintro (h | h) <;> simp [initSys] at h
  · intro h
    simp [initSys] at h
  · intro h
    simp [initSys] at h

theorem sysStep_inv (m0 nm : AssetMap) (s s2 : SysState) (e : SysEvent)
    (hI : SysInv m0 nm s) (h : sysStep nm s e = some s2) : SysInv m0 nm s2 := by
  obtain ⟨i1, i2, i3, i4, i5, i6, i7⟩ := hI
  cases e <;> simp only [sysStep] at h <;> split_ifs at h with hc <;>
    cases h
  ·
    refine ⟨i1, fun _ => rfl, ?_, ?_, i5, i6, ?_⟩
    · intro hw
      have h3 := i3 hw
      rw [hc.2] at h3
      cases h3
    · intro h4
      cases h4
    · intro _
      exact i7 (Or.inl hc.1)
  ·
    refine ⟨i1, fun _ => i2 (Or.inl hc), fun hw => i3 hw, fun _ => rfl, ?_, ?_, ?_⟩
    · intro hs2
      have := i7 (Or.inr hc)
      exact absurd this hs2
    · exact Or.inr (i1.elim (fun h => Or.inl (by rw [h])) (fun h => Or.inr (by rw [h])))
    · rintro (h4 | h4) <;> cases h4
  ·
    refine ⟨i1, fun _ => i2 (Or.inr (Or.inl hc)), fun hw => i3 hw, ?_, ?_, i6, ?_⟩
    · intro h4
      cases h4
    · intro _
      rw [i4 hc]
    · rintro (h4 | h4) <;> cases h4
  ·
    refine ⟨i1, ?_, ?_, ?_, i5, i6, ?_⟩
    · rintro (h4 | h4 | h4) <;> cases h4
    · intro hw
      have h3 := i3 hw
      have h2 := i2 (Or.inr (Or.inr hc))
      rw [h2] at h3
      cases h3
    · intro h4
      cases h4
    · rintro (h4 | h4) <;> cases h4
  ·
    refine ⟨i1, ?_, fun _ => rfl, i4, i5, i6, i7⟩
    intro hr
    have h2 := i2 hr
    rw [hc.2] at h2
    cases h2
  ·
    refine ⟨Or.inr rfl, fun hr => i2 hr, fun _ => i3 (Or.inl hc), ?_, i5, i6, i7⟩
    intro hr
    have h2 := i2 (Or.inr (Or.inl hr))
    have h3 := i3 (Or.inl hc)
    rw [h2] at h3
    cases h3
  ·
    refine ⟨i1, ?_, ?_, i4, i5, i6, i7⟩
    · intro hr
      have h2 := i2 hr
      have h3 := i3 (Or.inr hc)
      rw [h2] at h3
      cases h3
    · rintro (h4 | h4) <;> cases h4

theorem sysRun_inv (m0 nm : AssetMap) (evs : List SysEvent) :
    ∀ s s2 : SysState, SysInv m0 nm s → sysRun nm s evs = some s2 →
      SysInv m0 nm s2 := by
  induction evs with
  | nil =>
    intro s s2 hI h
    simp only [sysRun] at h
    cases h
    exact hI
  | cons e es ih =>
    intro s s2 hI h
    simp only [sysRun] at h
    rcases hstep : sysStep nm s e with _ | s1
    · rw [hstep] at h
      cases h
    · rw [hstep] at h
      exact ih s1 s2 (sysStep_inv m0 nm s s1 e hI hstep) h

/-! ## Claim theorems -/

/-- Claim C1, counterexample to the claim as stated: the claim demands that a
name appearing in two or more releases of one build cycle be absent from the
resulting catalog, but when the two releases belong to the same feed the
merge of `Serve` never sees a collision — the per-feed map has already
collapsed the name to its last occurrence — so the name is present. -/
theorem release_exclusion_fails : ¬ claimReleaseExclusion := by
  intro h
  have hx := h [[dupRelease1, dupRelease2]] "a.deb".toList (by decide)
  have hy : (buildCatalog [[dupRelease1, dupRelease2]]).find "a.deb".toList
      = some dupAsset2 := by decide
  rw [hy] at hx
  cases hx

/-- Claim C1 (amended): the catalog built by one `Serve` cycle maps a name
exactly when exactly one feed carries that name; the name then maps to the
last asset of that name in that feed's release order.  A name carried by two
or more feeds is excluded, and the lookup result is invariant under
permutation of the feed list (fetch order). -/
theorem buildCatalog_characterization (feeds : List (List Release)) (k : Str) :
    ((buildCatalog feeds).find k
        = (soleFeedFor k feeds).bind (fun rels => lastAssetNamed k rels)) ∧
    (∀ feeds2, feeds.Perm feeds2 →
      (buildCatalog feeds).find k = (buildCatalog feeds2).find k) :=
  ⟨buildCatalog_find feeds k,
    fun feeds2 hp => buildCatalog_find_perm feeds feeds2 k hp⟩

/-- Witness for the amended claim C1 at a concrete feed list and its
permutation. -/
theorem buildCatalog_characterization_witness :
    (buildCatalog [[dupRelease1], [otherRelease]]).find "a.deb".toList
      = (buildCatalog [[otherRelease], [dupRelease1]]).find "a.deb".toList :=
  (buildCatalog_characterization [[dupRelease1], [otherRelease]] "a.deb".toList).2
    [[otherRelease], [dupRelease1]] (List.Perm.swap _ _ _)

/-- Claim C2: `buggyAPTVersion` returns true exactly on the decision table
the specification describes — at least three whitespace fields, first field
`Debian`, second field beginning `APT-HTTP`, at least two dot-separated
version components, an integral major, and `major < 2`, or `major = 2` with
a parseable `minor < 2`; the spec's boundary examples evaluate accordingly. -/
theorem buggy_decision_table (ua : Str) :
    (buggyAPTVersion ua = true ↔ buggyDecisionTable ua) ∧
    buggyAPTVersion "Debian APT-HTTP/1.3 (1.6.18)".toList = true ∧
    buggyAPTVersion "Debian APT-HTTP/1.3 (2.0.11) non-interactive".toList = true ∧
    buggyAPTVersion "Debian APT-HTTP/1.3 (2.2.4)".toList = false ∧
    buggyAPTVersion "Debian APT-HTTP/1.3 (2.4.13)".toList = false ∧
    buggyAPTVersion "curl/8.0".toList = false :=
  ⟨buggyAPTVersion_iff ua, by decide, by decide, by decide, by decide, by decide⟩

/-- Claim C3: on a catalog hit (direct or tilde-substituted), a flagged
User-Agent is delegated to the fallback handler and a non-flagged one
receives a 307 redirect to the asset's download URL. -/
theorem dispatcher_catalog_hit (assets : AssetMap) (p ua : Str) (a : Asset)
    (h : resolveAsset assets (candidateName p) = some a) :
    serveHTTP assets p ua =
      if buggyAPTVersion ua then Response.next
      else Response.redirect a.browserURL 307 := by
  rw [serveHTTP_eq_decision]
  unfold redirectDecision
  rw [h]

/-- Witness for claim C3: the spec's end-to-end scenario, a hit served to a
non-flagged and to a flagged client. -/
theorem dispatcher_catalog_hit_witness :
    serveHTTP fooCatalog "/dists/foo_1.0.deb".toList
        "Debian APT-HTTP/1.3 (2.2.4)".toList
      = Response.redirect fooAsset.browserURL 307 ∧
    serveHTTP fooCatalog "/dists/foo_1.0.deb".toList
        "Debian APT-HTTP/1.3 (1.6.18)".toList
      = Response.next := by
  have h1 := dispatcher_catalog_hit fooCatalog "/dists/foo_1.0.deb".toList
    "Debian APT-HTTP/1.3 (2.2.4)".toList fooAsset (by decide)
  have h2 := dispatcher_catalog_hit fooCatalog "/dists/foo_1.0.deb".toList
    "Debian APT-HTTP/1.3 (1.6.18)".toList fooAsset (by decide)
  rw [h1, h2]
  constructor
  · rw [if_neg (by decide)]
  · rw [if_pos (by decide)]

/-- Claim C4: a cycle whose feed list contains a fetch/decode error builds to
that error, and the refresher leaves the published catalog unchanged,
terminates with that error, and processes no further cycles. -/
theorem refresh_failure_atomic (published : AssetMap) (pre : List FetchResult)
    (e : Str) (post : List FetchResult) (rest : List (List FetchResult))
    (hpre : ∀ f ∈ pre, ∃ rels, f = Except.ok rels) :
    serveOnce (pre ++ Except.error e :: post) = Except.error e ∧
    serve published ((pre ++ Except.error e :: post) :: rest)
      = (published, some e) := by
  have hb := serveBuild_error pre e post hpre ⟨[], []⟩
  refine ⟨hb, ?_⟩
  simp only [serve, serveOnce] at hb ⊢
  rw [hb]

/-- Witness for claim C4: one failing cycle with a concrete error, a feed
after the failure, and a further cycle, none of which is consumed. -/
theorem refresh_failure_atomic_witness :
    serve fooCatalog
        [[Except.error "boom".toList, Except.ok [dupRelease1]],
         [Except.ok [otherRelease]]]
      = (fooCatalog, some "boom".toList) :=
  (refresh_failure_atomic fooCatalog [] "boom".toList [Except.ok [dupRelease1]]
    [[Except.ok [otherRelease]]] (fun f hf => absurd hf (List.not_mem_nil f))).2

/-- Claim C5: when the requested name misses, exactly one retry happens, on
the name with only its first `~` replaced by `.` — later tildes survive, and
a tilde-free name is retried unchanged. -/
theorem tilde_fallback (m : AssetMap) (file : Str)
    (h : m.find file = none) :
    resolveAsset m file = m.find (replaceFirst file '~' '.') ∧
    (∀ pre post : Str, '~' ∉ pre → file = pre ++ '~' :: post →
      replaceFirst file '~' '.' = pre ++ '.' :: post) ∧
    ('~' ∉ file → replaceFirst file '~' '.' = file) := by
  refine ⟨resolveAsset_of_find_none m file h, ?_, replaceFirst_no_tilde file⟩
  rintro pre post hp rfl
  exact replaceFirst_split pre post hp

/-- Witness for claim C5: the spec's `foo~bar.deb` resolving through the
catalog entry `foo.bar.deb`. -/
theorem tilde_fallback_witness :
    resolveAsset fooDotCatalog "foo~bar.deb".toList = some fooDotAsset := by
  have h := (tilde_fallback fooDotCatalog "foo~bar.deb".toList (by decide)).1
  rw [h]
  decide

/-- Claim C6: a request whose final path segment matches no allow-list
pattern gets not-found with the downstream handler never invoked; a matching
segment forwards the unmodified request; the outcome is invariant under
permutation of the pattern list. -/
theorem filename_filter (names : List Str) (next : Str → Response) (p : Str) :
    ((∀ v ∈ names, pathMatchBool v (pathBase p) = false) →
      validateFilename names next p = (Response.notFound, false)) ∧
    ((∃ v ∈ names, pathMatchBool v (pathBase p) = true) →
      validateFilename names next p = (next p, true)) ∧
    (∀ names2, names.Perm names2 →
      validateFilename names next p = validateFilename names2 next p) := by
  unfold validateFilename
  refine ⟨?_, ?_, ?_⟩
  · intro hall
    have hany : names.any (fun v => pathMatchBool v (pathBase p)) = false := by
      cases hx : names.any (fun v => pathMatchBool v (pathBase p))
      · rfl
      · obtain ⟨v, hv, hfv⟩ := List.any_eq_true.mp hx
        rw [hall v hv] at hfv
        cases hfv
    rw [validateLoop_eq_any, hany]
    rfl
  · rintro ⟨v, hv, hfv⟩
    rw [validateLoop_eq_any, if_pos (List.any_eq_true.mpr ⟨v, hv, hfv⟩)]
  · intro names2 hperm
    rw [validateLoop_eq_any, validateLoop_eq_any,
      any_of_perm _ _ _ hperm]

/-- Witness for claim C6: the configured allow-list accepting a `.deb` name
and rejecting a `.txt` name. -/
theorem filename_filter_witness :
    validateFilename ["*.deb".toList, "Release".toList]
        (fun _ => Response.next) "/dists/foo_1.0.deb".toList
      = (Response.next, true) ∧
    validateFilename ["*.deb".toList, "Release".toList]
        (fun _ => Response.next) "/dists/not-allowed.txt".toList
      = (Response.notFound, false) := by
  constructor
  · exact (filename_filter _ _ _).2.1 ⟨"*.deb".toList, by decide, by decide⟩
  · exact (filename_filter _ _ _).1 (by decide)

/-- Claim C7: the candidate name is the percent-decoded final segment when
decoding succeeds and the verbatim segment when it fails, and the dispatcher
never answers with an error (not-found) response of its own. -/
theorem percent_decode_recovery (assets : AssetMap) (p ua : Str) :
    (∀ u, pathUnescape (pathBase p) = some u →
      candidateName p = u ∧
        serveHTTP assets p ua = redirectDecision assets u ua) ∧
    (pathUnescape (pathBase p) = none →
      candidateName p = pathBase p ∧
        serveHTTP assets p ua = redirectDecision assets (pathBase p) ua) ∧
    serveHTTP assets p ua ≠ Response.notFound := by
  refine ⟨?_, ?_, ?_⟩
  · intro u hu
    have hc : candidateName p = u := by
      simp only [candidateName, hu]
    exact ⟨hc, by rw [serveHTTP_eq_decision, hc]⟩
  · intro hn
    have hc : candidateName p = pathBase p := by
      simp only [candidateName, hn]
    exact ⟨hc, by rw [serveHTTP_eq_decision, hc]⟩
  · rw [serveHTTP_eq_decision]
    unfold redirectDecision
    rcases resolveAsset assets (candidateName p) with _ | a
    · simp
    · by_cases hb : buggyAPTVersion ua = true <;> simp [hb]

/-- Witness for claim C7: a decodable and an undecodable escaped segment. -/
theorem percent_decode_recovery_witness :
    candidateName "/dists/foo%7E1.deb".toList = "foo~1.deb".toList ∧
    candidateName "/dists/foo%2.deb".toList = "foo%2.deb".toList := by
  constructor
  · exact ((percent_decode_recovery [] "/dists/foo%7E1.deb".toList []).1
      "foo~1.deb".toList (by decide)).1
  · exact ((percent_decode_recovery [] "/dists/foo%2.deb".toList []).2.1
      (by decide)).1

/-- Claim C8: before the first build completes the published map is the nil
map; both the direct and the tilde-substituted lookup miss, the request is
delegated to the fallback handler, and no error response is produced. -/
theorem pre_first_snapshot (p ua : Str) :
    AssetMap.find initialAssets (candidateName p) = none ∧
    AssetMap.find initialAssets (replaceFirst (candidateName p) '~' '.') = none ∧
    resolveAsset initialAssets (candidateName p) = none ∧
    serveHTTP initialAssets p ua = Response.next :=
  ⟨rfl, rfl, rfl, rfl⟩

/-- Claim C9: in every legal interleaving of one request with one catalog
publication under the mutex discipline of the source, the two lookups of the
request observe one and the same snapshot, that snapshot is one of the two
published generations, and the two-step lookup over the observed snapshots
coincides with `resolveAsset` on a single snapshot. -/
theorem snapshot_atomicity (m0 nm : AssetMap) (evs : List SysEvent)
    (s2 : SysState) (h : sysRun nm (initSys m0) evs = some s2)
    (m1 m2 : AssetMap) (h1 : s2.firstMap = some m1)
    (h2 : s2.secondMap = some m2) :
    m1 = m2 ∧ (m1 = m0 ∨ m1 = nm) ∧
    (∀ file, (match AssetMap.find m1 file with
      | some a => some a
      | none => AssetMap.find m2 (replaceFirst file '~' '.')) =
        resolveAsset m1 file) := by
  have hI := sysRun_inv m0 nm evs (initSys m0) s2 (sysInv_init m0 nm) h
  obtain ⟨i1, i2, i3, i4, i5, i6, i7⟩ := hI
  have h5 := i5 (by rw [h2]; simp)
  rw [h2, h1] at h5
  have hm : m1 = m2 := (Option.some.inj h5).symm
  have h6 : m1 = m0 ∨ m1 = nm := by
    rcases i6 with hx | hx | hx
    · rw [h1] at hx
      cases hx
    · rw [h1] at hx
      exact Or.inl (Option.some.inj hx)
    · rw [h1] at hx
      exact Or.inr (Option.some.inj hx)
  refine ⟨hm, h6, ?_⟩
  intro file
  rw [← hm]
  rfl

/-- Witness for claim C9 on a concrete schedule: the writer publishes, then
the reader runs its whole critical section. -/
theorem snapshot_atomicity_witness :
    fooDotCatalog = fooDotCatalog ∧
    (fooDotCatalog = fooCatalog ∨ fooDotCatalog = fooDotCatalog) ∧
    (∀ file, (match AssetMap.find fooDotCatalog file with
      | some a => some a
      | none => AssetMap.find fooDotCatalog (replaceFirst file '~' '.')) =
        resolveAsset fooDotCatalog file) :=
  snapshot_atomicity fooCatalog fooDotCatalog
    [SysEvent.wLock, SysEvent.wSwap, SysEvent.wUnlock, SysEvent.rLock,
      SysEvent.rLookupDirect, SysEvent.rLookupTilde, SysEvent.rUnlock]
    ⟨none, fooDotCatalog, RPhase.rDone, WPhase.wDone,
      some fooDotCatalog, some fooDotCatalog⟩
    (by decide) fooDotCatalog fooDotCatalog rfl rfl

/-- Claim C10: a feed repeating an asset name across its own releases yields
a per-feed map carrying the last occurrence, and the cross-feed merge keeps
that name (mapped to the last occurrence) as long as no other feed carries
it. -/
theorem fetch_last_wins (k : Str) (pre post : List (List Release))
    (feed : List Release)
    (h1 : ∀ rels ∈ pre, containsName k rels = false)
    (h2 : ∀ rels ∈ post, containsName k rels = false) :
    ((fetchedAssets feed).find k = lastAssetNamed k feed) ∧
    (buildCatalog (pre ++ feed :: post)).find k = lastAssetNamed k feed := by
  refine ⟨fetchedAssets_find feed k, ?_⟩
  rw [buildCatalog_find, soleFeedFor_append k pre post feed h1 h2]
  cases h : containsName k feed
  · simp [lastAssetNamed_eq_none k feed h]
  · simp

/-- Witness for claim C10: one feed with the duplicated name next to a feed
without it; the catalog keeps the last occurrence. -/
theorem fetch_last_wins_witness :
    (buildCatalog [[otherRelease], [dupRelease1, dupRelease2]]).find
        "a.deb".toList = some dupAsset2 := by
  have h := (fetch_last_wins "a.deb".toList [[otherRelease]] []
    [dupRelease1, dupRelease2] (by decide) (by decide)).2
  exact h.trans (by decide)
